import Mathlib

/-!
Shallow embedding of the streaming pipeline fabric of `amplify-bot`
(stage worker loop, socket transports, loopback stage, VAD post-filter,
STT emission guard, client mirror receiver pump), with theorems checking
the specification's claims against it.

Conventions of the embedding:
* a queue's content is a `List (Option α)`: `some x` is a payload, `none`
  the shutdown sentinel;
* blocking reads from an exhausted queue or a diverging loop are modelled
  by an `Option` result: `none` means the run never exits its loop;
* the stop flag is modelled by the sequence of values the loop observes
  at its successive boundary checks (`Nat → Bool` or `List Bool`);
* byte streams are `List Nat`; TCP fragmentation of `recv` is modelled by
  a schedule of piece sizes, clamped to the legal range (at least one byte
  while data remains, zero exactly at end-of-stream).
-/

namespace AmplifyBot

/-! ### `BaseHandler.run` (src/baseHandler.py)

`proc a` models one invocation of `self.process(a)`: the list of values the
generator yielded before finishing or raising, paired with `true` when the
invocation ended in an exception (caught and logged by the loop, which then
continues with the next item).  The loop skips `None` yields, enqueues the
rest, and enqueues one final `None` after the loop exits. -/

def baseRun (stop : Nat → Bool) (proc : α → List (Option β) × Bool) :
    List (Option α) → Nat → Option (List (Option β))
  | q, k =>
    if stop k then some [none]
    else
      match q with
      | [] => none
      | none :: _ => some [none]
      | some a :: rest =>
        match baseRun stop proc rest (k + 1) with
        | none => none
        | some tail => some ((((proc a).1.filterMap id).map some) ++ tail)

/-- The stop flag is never observed set. -/
def stopNever : Nat → Bool := fun _ => false

/-- Helper: any exiting run enqueues, in order, some `some`-payloads and then
one final sentinel, and nothing else. -/
theorem baseRun_shape (stop : Nat → Bool) (proc : α → List (Option β) × Bool) :
    ∀ (q : List (Option α)) (k : Nat) (outs : List (Option β)),
      baseRun stop proc q k = some outs →
      ∃ ps : List β, outs = ps.map some ++ [none] := by
  intro q
  induction q with
  | nil =>
    intro k outs h
    rw [baseRun.eq_def] at h
    by_cases hs : stop k
    · simp [hs] at h
      exact ⟨[], by simp [← h]⟩
    · simp [hs] at h
  | cons o rest ih =>
    intro k outs h
    rw [baseRun.eq_def] at h
    by_cases hs : stop k
    · simp [hs] at h
      exact ⟨[], by simp [← h]⟩
    · cases o with
      | none =>
        simp [hs] at h
        exact ⟨[], by simp [← h]⟩
      | some a =>
        cases hrec : baseRun stop proc rest (k + 1) with
        | none => simp [hs, hrec] at h
        | some tail =>
          simp [hs, hrec] at h
          obtain ⟨ps, hps⟩ := ih (k + 1) tail hrec
          refine ⟨(proc a).1.filterMap id ++ ps, ?_⟩
          rw [← h, hps]
          simp

/-- Helper: a run over a queue of payloads `items` followed by a sentinel,
with the stop flag never set, enqueues for each item the non-`None` values
its `process` yielded, in order, then the single final sentinel. -/
theorem baseRun_items (proc : α → List (Option β) × Bool) (items : List α) :
    ∀ k : Nat,
      baseRun stopNever proc (items.map some ++ [none]) k =
        some ((items.flatMap fun a => ((proc a).1.filterMap id).map some) ++ [none]) := by
  induction items with
  | nil => intro k; simp [baseRun, stopNever]
  | cons a rest ih =>
    intro k
    rw [baseRun.eq_def]
    simp [stopNever, ih (k + 1)]

/-- C1: for every run of a stage's worker loop (`BaseHandler.run`) that
exits its loop — by receiving the sentinel, by observing the stop flag at an
item boundary, or after any number of per-item `process` failures — exactly
one shutdown sentinel (`None`) is enqueued on the output queue. -/
theorem baseHandler_one_sentinel [DecidableEq β]
    (stop : Nat → Bool) (proc : α → List (Option β) × Bool)
    (q : List (Option α)) (k : Nat) (outs : List (Option β))
    (h : baseRun stop proc q k = some outs) : outs.count none = 1 := by
  obtain ⟨ps, rfl⟩ := baseRun_shape stop proc q k outs h
  rw [List.count_append]
  have h0 : (ps.map some).count (none : Option β) = 0 := by
    rw [List.count_eq_zero]
    simp
  rw [h0]
  simp

/-- Witness for C1 at a concrete run: a two-element queue `[some 1, none]`
processed by a stage that echoes its input. -/
theorem baseHandler_one_sentinel_witness :
    List.count (none : Option Nat) [some 1, none] = 1 :=
  baseHandler_one_sentinel stopNever (fun a : Nat => ([some a], false))
    [some 1, none] 0 [some 1, none] (by decide)

/-- C10: any `None` yielded by a stage's `process` is dropped, never
enqueued; the output queue of an exiting run is a list of `some`-payloads
followed by the single shutdown sentinel, so the only `None` a stage puts
downstream is that final sentinel. -/
theorem baseHandler_none_only_sentinel
    (stop : Nat → Bool) (proc : α → List (Option β) × Bool)
    (q : List (Option α)) (k : Nat) (outs : List (Option β))
    (h : baseRun stop proc q k = some outs) :
    ∃ ps : List β, outs = ps.map some ++ [none] ∧ (none : Option β) ∉ ps.map some := by
  obtain ⟨ps, rfl⟩ := baseRun_shape stop proc q k outs h
  exact ⟨ps, rfl, by simp⟩

/-- Witness for C10 at a concrete run: a stage that yields `none` then a
payload; the `none` yield is dropped. -/
theorem baseHandler_none_only_sentinel_witness :
    ∃ ps : List Nat, [some 7, (none : Option Nat)] = ps.map some ++ [none] ∧
      (none : Option Nat) ∉ ps.map some :=
  baseHandler_none_only_sentinel stopNever (fun a : Nat => ([none, some a], false))
    [some 7, none] 0 [some 7, none] (by decide)

/-- A `process` implementation that yields exactly one `None` value. -/
def procYieldNone : Nat → List (Option Nat) × Bool := fun _ => ([none], false)

/-- C4 counterexample: a stage whose `process` returns the length-one lazy
sequence `[None]` for item `0` gets zero outputs enqueued for that item
(the run's whole output is the single final sentinel), so the number of
outputs enqueued differs from the length of the returned sequence. -/
theorem baseHandler_outputs_length_counterexample :
    baseRun stopNever procYieldNone [some 0, none] 0 = some [none] ∧
      (procYieldNone 0).1.length = 1 ∧
      ([none] : List (Option Nat)).count (some 0) = 0 := by
  refine ⟨by decide, by decide, by decide⟩

/-- C4 (amended): for every non-sentinel item consumed, the number of
outputs enqueued equals the number of non-`None` elements of the lazy
sequence `process` returned for it: the run over payloads `items` enqueues
exactly the block `filterMap id (proc a).1` for each item `a`, in order. -/
theorem baseHandler_outputs_per_item (proc : α → List (Option β) × Bool)
    (items : List α) :
    baseRun stopNever proc (items.map some ++ [none]) 0 =
      some ((items.flatMap fun a => ((proc a).1.filterMap id).map some) ++ [none]) ∧
    ∀ a : α, (((proc a).1.filterMap id).map some).length =
      ((proc a).1.filterMap id).length :=
  ⟨baseRun_items proc items 0, fun a => by simp⟩

/-- `LocalAudioStreamer.process` (src/connections/local_audio_streamer.py):
forwards the chunk unchanged, as the single yield of its generator. -/
def localAudioStreamerProcess (chunk : α) : List (Option α) × Bool :=
  ([some chunk], false)

/-- C8: the loopback stage is the identity: `process` yields exactly one
output equal to its input, and a worker-loop run of the stage over any
payload queue reproduces the queue unchanged (order and chunk boundaries
preserved), followed by the usual single sentinel. -/
theorem localAudioStreamer_identity (q : List α) :
    (∀ chunk : α, (localAudioStreamerProcess chunk).1 = [some chunk]) ∧
    baseRun stopNever localAudioStreamerProcess (q.map some ++ [none]) 0 =
      some (q.map some ++ [none]) := by
  refine ⟨fun _ => rfl, ?_⟩
  rw [baseRun_items]
  congr 1
  rw [List.append_left_inj]
  have hsing : ∀ l : List α, (l.flatMap fun a => [some a]) = l.map some := by
    intro l
    induction l with
    | nil => rfl
    | cons a rest ih => simp [ih]
  simpa [localAudioStreamerProcess] using hsing q

/-! ### `SocketReceiver` (src/connections/socket_receiver.py)

The client byte stream is a `List Nat`; `sched` is the schedule of piece
sizes TCP delivers on successive `recv` calls, clamped to the legal range:
at least one byte while data remains (a blocking `recv` with data pending
returns at least one byte), at most the requested and the available count,
and zero exactly at end-of-stream or when zero bytes were requested. -/

def recvLen (req avail s : Nat) : Nat :=
  if avail = 0 then 0 else min (max s 1) (min req avail)

/-- `SocketReceiver.receive_full_chunk`: repeatedly `recv` the remaining
byte count until `req` bytes were accumulated; if a `recv` returns zero
bytes, return `none` (connection closed).  Returns the chunk together with
the remaining stream and the remaining schedule. -/
def receive_full_chunk (stream : List Nat) (req : Nat) (sched : List Nat) :
    Option (List Nat) × List Nat × List Nat :=
  if h0 : req = 0 then (some [], stream, sched)
  else
    let k := recvLen req stream.length (sched.headD 1)
    if hk : k = 0 then (none, stream, sched.tail)
    else
      match receive_full_chunk (stream.drop k) (req - k) sched.tail with
      | (none, st, sc) => (none, st, sc)
      | (some tail, st, sc) => (some (stream.take k ++ tail), st, sc)
termination_by req
decreasing_by exact Nat.sub_lt (Nat.pos_of_ne_zero h0) (Nat.pos_of_ne_zero hk)

/-- `SocketReceiver.run` after the accept: loop while the stop flag is
unset; read one full chunk; on closed connection enqueue the sentinel and
break; otherwise enqueue the chunk.  `stop` lists the flag values observed
at successive loop boundaries (`[]` = never set); `fuel` bounds the number
of iterations, `none` meaning the loop did not finish within it. -/
def socketReceiverRun : Nat → List Bool → Nat → List Nat → List Nat →
    Option (List (Option (List Nat)))
  | 0, _, _, _, _ => none
  | fuel + 1, stop, chunkSize, stream, sched =>
    if stop.headD false then some []
    else
      match receive_full_chunk stream chunkSize sched with
      | (none, _, _) => some [none]
      | (some chunk, stream', sched') =>
        match socketReceiverRun fuel stop.tail chunkSize stream' sched' with
        | none => none
        | some rest => some (some chunk :: rest)

/-- Helper: with at least `req` bytes remaining, `receive_full_chunk`
returns exactly the next `req` bytes of the stream and leaves the rest. -/
theorem receive_full_chunk_success :
    ∀ (req : Nat) (stream sched : List Nat), req ≤ stream.length →
      ∃ sc : List Nat,
        receive_full_chunk stream req sched =
          (some (stream.take req), stream.drop req, sc) := by
  intro req
  induction req using Nat.strong_induction_on with
  | _ req ih =>
    intro stream sched hreq
    rw [receive_full_chunk.eq_def]
    by_cases h0 : req = 0
    · subst h0
      exact ⟨sched, by simp⟩
    · have hpos : 0 < req := Nat.pos_of_ne_zero h0
      have havail : stream.length ≠ 0 := by omega
      have hk1 : 1 ≤ recvLen req stream.length (sched.headD 1) := by
        unfold recvLen
        rw [if_neg havail]
        have : 1 ≤ max (sched.headD 1) 1 := le_max_right _ _
        have : 1 ≤ min req stream.length := le_min hpos (by omega)
        omega
      set k := recvLen req stream.length (sched.headD 1) with hkdef
      have hkreq : k ≤ req := by
        rw [hkdef]
        unfold recvLen
        rw [if_neg havail]
        exact le_trans (min_le_right _ _) (min_le_left _ _)
      have hkne : ¬ k = 0 := by omega
      simp only [h0, dite_false, hkne, dite_false]
      have hlen : req - k ≤ (stream.drop k).length := by
        rw [List.length_drop]
        omega
      obtain ⟨sc, hsc⟩ := ih (req - k) (Nat.sub_lt hpos (by omega)) (stream.drop k)
        sched.tail hlen
      rw [hsc]
      have htake : stream.take k ++ (stream.drop k).take (req - k) = stream.take req := by
        rw [← List.take_add]
        congr 1
        omega
      have hdrop : (stream.drop k).drop (req - k) = stream.drop req := by
        rw [List.drop_drop]
        congr 1
        omega
      refine ⟨sc, ?_⟩
      show (some (stream.take k ++ (stream.drop k).take (req - k)),
        (stream.drop k).drop (req - k), sc) =
        (some (stream.take req), stream.drop req, sc)
      rw [htake, hdrop]

/-- Helper: with fewer than `req` bytes remaining, `receive_full_chunk`
hits end-of-stream and returns `none`. -/
theorem receive_full_chunk_eof :
    ∀ (req : Nat) (stream sched : List Nat), stream.length < req →
      (receive_full_chunk stream req sched).1 = none := by
  intro req
  induction req using Nat.strong_induction_on with
  | _ req ih =>
    intro stream sched hreq
    rw [receive_full_chunk.eq_def]
    have h0 : req ≠ 0 := by omega
    by_cases havail : stream.length = 0
    · have hk0 : recvLen req stream.length (sched.headD 1) = 0 := by
        unfold recvLen
        rw [if_pos havail]
      simp only [h0, dite_false, hk0, dite_true]
    · have hk1 : 1 ≤ recvLen req stream.length (sched.headD 1) := by
        unfold recvLen
        rw [if_neg havail]
        have : 1 ≤ max (sched.headD 1) 1 := le_max_right _ _
        have : 1 ≤ min req stream.length := le_min (by omega) (by omega)
        omega
      set k := recvLen req stream.length (sched.headD 1) with hkdef
      have hkavail : k ≤ stream.length := by
        rw [hkdef]
        unfold recvLen
        rw [if_neg havail]
        exact le_trans (min_le_right _ _) (min_le_right _ _)
      have hkne : ¬ k = 0 := by omega
      simp only [h0, dite_false, hkne, dite_false]
      have hlt : (stream.drop k).length < req - k := by
        rw [List.length_drop]
        omega
      have := ih (req - k) (Nat.sub_lt (by omega) (by omega)) (stream.drop k)
        sched.tail hlt
      cases hrec : receive_full_chunk (stream.drop k) (req - k) sched.tail with
      | mk fst snd =>
        rw [hrec] at this
        simp at this
        subst this
        simp

/-- C2: for every client byte stream of exactly `n * chunkSize` bytes
followed by end-of-stream, under any TCP fragmentation schedule and with
the stop flag never observed set, `SocketReceiver` enqueues exactly `n`
items, each of length `chunkSize`, together forming the byte stream in
order with no gaps, followed by exactly one sentinel. -/
theorem socketReceiver_frames (n chunkSize : Nat) (stream sched : List Nat)
    (hcs : 0 < chunkSize) (hlen : stream.length = n * chunkSize) :
    ∃ items : List (List Nat),
      socketReceiverRun (n + 1) [] chunkSize stream sched =
        some (items.map some ++ [none]) ∧
      items.length = n ∧ (∀ c ∈ items, c.length = chunkSize) ∧
      items.flatten = stream := by
  induction n generalizing stream sched with
  | zero =>
    refine ⟨[], ?_, rfl, by simp, ?_⟩
    · rw [socketReceiverRun]
      have heof : (receive_full_chunk stream chunkSize sched).1 = none :=
        receive_full_chunk_eof chunkSize stream sched (by omega)
      cases hrec : receive_full_chunk stream chunkSize sched with
      | mk fst snd =>
        rw [hrec] at heof
        simp only at heof
        subst heof
        rfl
    · simp at hlen
      simp [hlen]
  | succ m ih =>
    have hle : chunkSize ≤ stream.length := by
      rw [hlen]
      calc chunkSize = 1 * chunkSize := (one_mul _).symm
        _ ≤ (m + 1) * chunkSize := Nat.mul_le_mul_right _ (by omega)
    obtain ⟨sc, hsc⟩ := receive_full_chunk_success chunkSize stream sched hle
    have hlen' : (stream.drop chunkSize).length = m * chunkSize := by
      rw [List.length_drop, hlen]
      ring_nf
      omega
    obtain ⟨items, hrun, hcount, hsize, hflat⟩ := ih (stream.drop chunkSize) sc hlen'
    refine ⟨stream.take chunkSize :: items, ?_, by simp [hcount], ?_, ?_⟩
    · rw [socketReceiverRun, hsc]
      simp only [List.headD_nil, Bool.false_eq_true, if_false, List.tail_nil]
      rw [hrun]
      rfl
    · intro c hc
      rcases List.mem_cons.mp hc with h | h
      · subst h
        rw [List.length_take]
        omega
      · exact hsize c h
    · simp [hflat]

/-- Witness for C2: two 2-byte chunks from the 4-byte stream `[1,2,3,4]`
under the default (maximal-piece) schedule. -/
theorem socketReceiver_frames_witness :
    ∃ items : List (List Nat),
      socketReceiverRun 3 [] 2 [1, 2, 3, 4] [] =
        some (items.map some ++ [none]) ∧
      items.length = 2 ∧ (∀ c ∈ items, c.length = 2) ∧
      items.flatten = [1, 2, 3, 4] :=
  socketReceiver_frames 2 2 [1, 2, 3, 4] [] (by decide) (by decide)

/-- C5 counterexample: with the stop flag observed set at the first loop
boundary and a live connection (four bytes still pending), the receive loop
exits enqueueing nothing at all — in particular no shutdown sentinel. -/
theorem socketReceiver_stop_no_sentinel_counterexample :
    socketReceiverRun 1 [true] 4 [5, 6, 7, 8] [] = some [] ∧
      List.count (none : Option (List Nat)) [] = 0 := by
  constructor
  · rfl
  · rfl

/-- C5 (amended): when the receive loop exits because the connection was
observed closed, the sentinel is the last item it enqueues and the only
sentinel; when it exits because the stop flag was observed set at an item
boundary, it exits without enqueueing anything, in particular without a
sentinel. -/
theorem socketReceiver_sentinel_on_close_only (fuel chunkSize : Nat)
    (stream sched : List Nat) (stopRest : List Bool)
    (outs : List (Option (List Nat)))
    (h : socketReceiverRun fuel [] chunkSize stream sched = some outs) :
    (outs.count none = 1 ∧ outs.getLast? = some none) ∧
      socketReceiverRun (fuel + 1) (true :: stopRest) chunkSize stream sched =
        some [] := by
  refine ⟨?_, by rw [socketReceiverRun]; rfl⟩
  induction fuel generalizing stream sched outs with
  | zero => rw [socketReceiverRun] at h; exact absurd h (by simp)
  | succ m ih =>
    rw [socketReceiverRun] at h
    simp only [List.headD_nil, Bool.false_eq_true, if_false, List.tail_nil] at h
    cases hrec : receive_full_chunk stream chunkSize sched with
    | mk fst rest =>
      rw [hrec] at h
      obtain ⟨stream', sched'⟩ := rest
      cases fst with
      | none =>
        simp only [Option.some.injEq] at h
        subst h
        exact ⟨rfl, rfl⟩
      | some chunk =>
        simp only [] at h
        cases hrun : socketReceiverRun m [] chunkSize stream' sched' with
        | none => rw [hrun] at h; simp at h
        | some tail =>
          rw [hrun] at h
          simp only [Option.some.injEq] at h
          subst h
          obtain ⟨hcount, hlast⟩ := ih stream' sched' tail hrun
          constructor
          · simp [List.count_cons, hcount]
          · cases tail with
            | nil => simp at hlast
            | cons b l => rw [List.getLast?_cons_cons]; exact hlast

/-- Witness for C5 (amended): a run that hits end-of-stream while reading
its first chunk enqueues exactly the sentinel; the same configuration with
the stop flag set at the first boundary enqueues nothing. -/
theorem socketReceiver_sentinel_on_close_only_witness :
    ((List.count (none : Option (List Nat)) [none] = 1 ∧
        ([none] : List (Option (List Nat))).getLast? = some none) ∧
      socketReceiverRun 2 [true] 3 [9] [] = some []) :=
  socketReceiver_sentinel_on_close_only 1 3 [9] [] [] [none]
    (by simp [socketReceiverRun, receive_full_chunk, recvLen])

/-! ### `SocketSender` (src/connections/socket_sender.py)

`stop` lists the stop-flag values observed at successive loop boundaries;
`ok` lists whether each successive `conn.sendall` completes or raises a
broken-pipe/connection-reset error (`[]` defaults to all-unset / all-ok).
A run returns the bytes written to the connection and the items left on
the input queue, or `none` when the loop blocks forever on an empty
queue. -/

def socketSenderRun :
    List Bool → List Bool → List (Option (List Nat)) →
      Option (List Nat × List (Option (List Nat)))
  | stop, ok, q =>
    if stop.headD false then some ([], q)
    else
      match q with
      | [] => none
      | none :: rest => some ([], rest)
      | some d :: rest =>
        if ok.headD true then
          match socketSenderRun stop.tail ok.tail rest with
          | none => none
          | some (w, q') => some (d ++ w, q')
        else some ([], rest)

/-- The payloads queued ahead of the first sentinel. -/
def payloadsBeforeSentinel (items : List (Option (List Nat))) : List (List Nat) :=
  (items.takeWhile Option.isSome).filterMap id

/-- C6: with a sentinel somewhere on the queue, the bytes `SocketSender`
writes are exactly the concatenation, in FIFO order, of the payloads
dequeued before the first sentinel, and nothing at or after the sentinel is
written; and when the `j`-th write raises broken-pipe/connection-reset, the
loop exits having written only the payloads before it, leaving the rest of
the queue untouched (no re-enqueue). -/
theorem socketSender_writes (items : List (Option (List Nat))) (j : Nat)
    (okRest : List Bool)
    (hsent : (none : Option (List Nat)) ∈ items)
    (hj : j < (payloadsBeforeSentinel items).length) :
    socketSenderRun [] [] items =
      some ((payloadsBeforeSentinel items).flatten,
        items.drop ((items.takeWhile Option.isSome).length + 1)) ∧
    socketSenderRun [] (List.replicate j true ++ false :: okRest) items =
      some (((payloadsBeforeSentinel items).take j).flatten, items.drop (j + 1)) := by
  constructor
  · clear hj
    induction items with
    | nil => simp at hsent
    | cons o rest ih =>
      cases o with
      | none =>
        rw [socketSenderRun.eq_def]
        simp [payloadsBeforeSentinel]
      | some d =>
        have hsent' : (none : Option (List Nat)) ∈ rest := by
          rcases List.mem_cons.mp hsent with h | h
          · exact absurd h (by simp)
          · exact h
        rw [socketSenderRun.eq_def]
        simp only [List.headD_nil, Bool.false_eq_true, if_false, List.tail_nil,
          if_true]
        rw [ih hsent']
        simp [payloadsBeforeSentinel]
  · clear hsent
    induction j generalizing items okRest with
    | zero =>
      match items, hj with
      | some d :: rest, _ =>
        rw [socketSenderRun.eq_def]
        simp [payloadsBeforeSentinel]
    | succ m ih =>
      match items, hj with
      | some d :: rest, hj =>
        have hj' : m < (payloadsBeforeSentinel rest).length := by
          simp [payloadsBeforeSentinel] at hj ⊢
          omega
        rw [socketSenderRun.eq_def]
        simp only [List.headD_nil, Bool.false_eq_true, if_false, List.tail_nil,
          List.replicate_succ, List.cons_append, List.headD_cons, if_true,
          List.tail_cons]
        rw [ih rest okRest hj']
        simp [payloadsBeforeSentinel]

/-- Witness for C6: queue `[some [1,2], none, some [9]]`; with no failures
the run writes `[1,2]` and leaves `[some [9]]`; with the first write
failing it writes nothing and leaves `[none, some [9]]`. -/
theorem socketSender_writes_witness :
    (socketSenderRun [] [] [some [1, 2], none, some [9]] =
        some ((payloadsBeforeSentinel [some [1, 2], none, some [9]]).flatten,
          List.drop ((List.takeWhile Option.isSome
            [some [1, 2], none, some [9]]).length + 1)
            [some [1, 2], none, some [9]]) ∧
      socketSenderRun [] (List.replicate 0 true ++ false :: [])
          [some [1, 2], none, some [9]] =
        some (((payloadsBeforeSentinel [some [1, 2], none, some [9]]).take 0).flatten,
          List.drop (0 + 1) [some [1, 2], none, some [9]])) :=
  socketSender_writes [some [1, 2], none, some [9]] 0 [] (by decide) (by decide)

/-! ### `VADHandler.process` (src/VAD/vad_handler.py)

Float arrays are modelled as `List ℚ` (only lengths matter to the claims;
real arithmetic stands in for Python float arithmetic).  The iterator's
per-chunk output `vad_output` is `[]` when falsy (`None` or an empty list
of tensors) and otherwise the list of tensors that `torch.cat` flattens
into the segment.  `enhanceFn` models the external
resample/`df.enhance`/resample round trip applied when
`audio_enhancement` is set; the repository places no constraint on it. -/

structure VADConfig where
  sampleRate : ℚ
  minSpeechMs : ℚ
  maxSpeechMs : Option ℚ    -- `none` models `float("inf")`
  audioEnhancement : Bool

/-- `len(segment) / self.sample_rate * 1000`. -/
def durationMs (sampleRate : ℚ) (segment : List ℚ) : ℚ :=
  (segment.length : ℚ) / sampleRate * 1000

/-- `self.min_speech_ms <= dur <= self.max_speech_ms`. -/
def durationOk (cfg : VADConfig) (segment : List ℚ) : Bool :=
  decide (cfg.minSpeechMs ≤ durationMs cfg.sampleRate segment) &&
    match cfg.maxSpeechMs with
    | none => true
    | some m => decide (durationMs cfg.sampleRate segment ≤ m)

/-- `VADHandler.process` from the iterator output onward. -/
def vadProcess (cfg : VADConfig) (enhanceFn : List ℚ → List ℚ)
    (vadOutput : List (List ℚ)) : List (List ℚ) :=
  if vadOutput = [] then []
  else
    let segment := vadOutput.flatten
    if durationOk cfg segment then
      if cfg.audioEnhancement then [enhanceFn segment] else [segment]
    else []

/-- C3 counterexample: the duration filter runs before audio enhancement,
so with `audio_enhancement` on the yielded segment is the enhanced one and
its duration is unconstrained: an enhancement returning one sample makes
`process` yield a segment of duration 1 ms under `min_speech_ms = 5`, and
an enhancement returning no samples makes it yield an empty segment. -/
theorem vadHandler_duration_counterexample :
    (vadProcess ⟨1000, 5, none, true⟩ (fun _ => [0]) [[0, 0, 0, 0, 0]] = [[0]] ∧
      ¬ ((5 : ℚ) ≤ durationMs 1000 [(0 : ℚ)])) ∧
    vadProcess ⟨1000, 5, none, true⟩ (fun _ => []) [[0, 0, 0, 0, 0]] = [[]] := by
  refine ⟨⟨?_, by norm_num [durationMs]⟩, ?_⟩ <;>
    simp [vadProcess, durationOk, durationMs]

/-- C3 (amended): with `audio_enhancement` disabled, every segment yielded
by `VADHandler.process` satisfies
`min_speech_ms ≤ 1000 * samples / sample_rate ≤ max_speech_ms`, and is
non-empty whenever `min_speech_ms > 0`.  (With enhancement enabled the
bounds hold of the pre-enhancement segment instead.) -/
theorem vadHandler_duration_bounds (cfg : VADConfig)
    (enhanceFn : List ℚ → List ℚ) (vadOutput : List (List ℚ)) (seg : List ℚ)
    (henh : cfg.audioEnhancement = false)
    (hmem : seg ∈ vadProcess cfg enhanceFn vadOutput) :
    cfg.minSpeechMs ≤ durationMs cfg.sampleRate seg ∧
      (∀ m : ℚ, cfg.maxSpeechMs = some m →
        durationMs cfg.sampleRate seg ≤ m) ∧
      (0 < cfg.minSpeechMs → seg ≠ []) := by
  unfold vadProcess at hmem
  by_cases hv : vadOutput = []
  · simp [hv] at hmem
  · rw [if_neg hv] at hmem
    by_cases hdur : durationOk cfg vadOutput.flatten
    · rw [if_pos hdur, henh] at hmem
      simp only [Bool.false_eq_true, if_false, List.mem_singleton] at hmem
      subst hmem
      unfold durationOk at hdur
      simp only [Bool.and_eq_true, decide_eq_true_eq] at hdur
      obtain ⟨hmin, hmax⟩ := hdur
      refine ⟨hmin, ?_, ?_⟩
      · intro m hm
        rw [hm] at hmax
        simpa using hmax
      · intro hpos hnil
        rw [hnil] at hmin
        simp [durationMs] at hmin
        exact absurd (lt_of_lt_of_le hpos hmin) (lt_irrefl 0)
    · rw [if_neg hdur] at hmem
      simp at hmem

/-- Witness for C3 (amended): sample rate 10, bounds [500 ms, 600 ms], a
five-sample segment (500 ms), enhancement off. -/
theorem vadHandler_duration_bounds_witness :
    (⟨10, 500, some 600, false⟩ : VADConfig).minSpeechMs ≤
        durationMs 10 [0, 0, 0, 0, 0] ∧
      (∀ m : ℚ, (⟨10, 500, some 600, false⟩ : VADConfig).maxSpeechMs = some m →
        durationMs 10 [0, 0, 0, 0, 0] ≤ m) ∧
      (0 < (⟨10, 500, some 600, false⟩ : VADConfig).minSpeechMs →
        ([0, 0, 0, 0, 0] : List ℚ) ≠ []) :=
  vadHandler_duration_bounds ⟨10, 500, some 600, false⟩ id [[0, 0, 0, 0, 0]]
    [0, 0, 0, 0, 0] rfl (by simp [vadProcess, durationOk, durationMs]; norm_num)

/-! ### `WhisperSTTHandler.process` (src/STT/whisper_stt_handler.py)

The external model and tokenizer produce some decoded string; the handler
strips it and yields it only when non-empty.  Strings are `List Char`;
Python `str.strip()` is leading- then trailing-whitespace removal. -/

def isWS (c : Char) : Bool := c.isWhitespace

/-- Python `str.strip()`. -/
def pyStrip (s : List Char) : List Char :=
  (s.dropWhile isWS).rdropWhile isWS

/-- `WhisperSTTHandler.process` from the decoded string onward:
`text = ....strip()`; `if text: yield text`. -/
def whisperProcessText (decoded : List Char) : List (List Char) :=
  let text := pyStrip decoded
  if text = [] then [] else [text]

/-- Helper: stripping is idempotent. -/
theorem pyStrip_idem (s : List Char) : pyStrip (pyStrip s) = pyStrip s := by
  unfold pyStrip
  have h1 : List.dropWhile isWS ((s.dropWhile isWS).rdropWhile isWS) =
      (s.dropWhile isWS).rdropWhile isWS := by
    rw [List.dropWhile_eq_self_iff]
    intro hl
    have hpre : (s.dropWhile isWS).rdropWhile isWS <+: s.dropWhile isWS :=
      List.rdropWhile_prefix isWS (s.dropWhile isWS)
    have hlen : 0 < (s.dropWhile isWS).length :=
      lt_of_lt_of_le hl (List.IsPrefix.length_le hpre)
    have hget : ((s.dropWhile isWS).rdropWhile isWS).get ⟨0, hl⟩ =
        (s.dropWhile isWS).get ⟨0, hlen⟩ := by
      simp only [List.get_eq_getElem]
      exact List.IsPrefix.getElem hpre hl
    rw [hget]
    exact List.dropWhile_get_zero_not isWS s hlen
  rw [h1, List.rdropWhile_idempotent]

/-- C7: every transcript yielded by `WhisperSTTHandler.process` is
non-empty and equal to its own stripped form; an empty or whitespace-only
decode result yields no output. -/
theorem whisper_transcripts (decoded : List Char) :
    (∀ t ∈ whisperProcessText decoded, t ≠ [] ∧ pyStrip t = t) ∧
      ((∀ c ∈ decoded, isWS c = true) → whisperProcessText decoded = []) := by
  constructor
  · intro t h
    unfold whisperProcessText at h
    by_cases hnil : pyStrip decoded = []
    · simp [hnil] at h
    · simp only [hnil, if_false, List.mem_singleton] at h
      subst h
      exact ⟨hnil, pyStrip_idem decoded⟩
  · intro hall
    have hnil : pyStrip decoded = [] := by
      unfold pyStrip
      rw [List.dropWhile_eq_nil_iff.mpr (fun x hx => hall x hx)]
      simp [List.rdropWhile]
    unfold whisperProcessText
    simp [hnil]

/-- Witness for C7: the decode result `" a "` yields the transcript `"a"`,
non-empty and fixed by stripping; the whitespace-only decode result `"  "`
yields no output. -/
theorem whisper_transcripts_witness :
    ((['a'] : List Char) ≠ [] ∧ pyStrip ['a'] = ['a']) ∧
      whisperProcessText [' ', ' '] = [] :=
  ⟨(whisper_transcripts [' ', 'a', ' ']).1 ['a'] (by decide),
    (whisper_transcripts [' ', ' ']).2 (by decide)⟩

/-! ### `listen_and_play.receiver` (src/listen_and_play.py)

The receiver pump calls `recv_sock.recv(chunk_size * 2)` once per
iteration — a single `recv`, not a read-until-full loop — and puts
whatever it returned on the receive queue; a zero-byte read sets the stop
flag and exits. -/

theorem recvLen_le_avail (req avail s : Nat) : recvLen req avail s ≤ avail := by
  unfold recvLen
  split
  · omega
  · exact le_trans (min_le_right _ _) (min_le_right _ _)

theorem recvLen_le_req (req avail s : Nat) : recvLen req avail s ≤ req := by
  unfold recvLen
  split
  · omega
  · exact le_trans (min_le_right _ _) (min_le_left _ _)

def listenPlayReceiver (stop : List Bool) (chunkSize : Nat)
    (stream sched : List Nat) : List (List Nat) :=
  if stop.headD false then []
  else if hk : recvLen (chunkSize * 2) stream.length
      (sched.headD (chunkSize * 2)) = 0 then
    []
  else
    stream.take (recvLen (chunkSize * 2) stream.length
        (sched.headD (chunkSize * 2))) ::
      listenPlayReceiver stop.tail chunkSize
        (stream.drop (recvLen (chunkSize * 2) stream.length
          (sched.headD (chunkSize * 2))))
        sched.tail
termination_by stream.length
decreasing_by
  have h1 := recvLen_le_avail (chunkSize * 2) stream.length
    (sched.headD (chunkSize * 2))
  have h2 : stream.length ≠ 0 := by
    intro h0
    apply hk
    unfold recvLen
    rw [if_pos h0]
  simp only [List.length_drop]
  omega

/-- C9 counterexample: with `chunk_size = 2` (frame size 4 bytes) and TCP
delivering a single byte on the first `recv`, the pump puts the one-byte
item `[1]` on the receive queue — not a whole 4-byte frame. -/
theorem listenPlayReceiver_short_item_counterexample :
    listenPlayReceiver [] 2 [1, 2, 3, 4, 5] [1] = [[1], [2, 3, 4, 5]] ∧
      ([1] : List Nat).length ≠ 2 * 2 := by
  constructor
  · rw [listenPlayReceiver.eq_def]
    norm_num [recvLen]
    rw [listenPlayReceiver.eq_def]
    norm_num [recvLen]
    rw [listenPlayReceiver.eq_def]
    norm_num [recvLen]
  · decide

/-- C9 (amended): every item the receiver pump puts on its receive queue
has length at least one and at most `2 * chunk_size` bytes; short reads
below one whole 16-bit frame are possible and enqueued as-is. -/
theorem listenPlayReceiver_item_bounds (chunkSize : Nat) (stop : List Bool)
    (stream sched : List Nat) (d : List Nat)
    (hd : d ∈ listenPlayReceiver stop chunkSize stream sched) :
    1 ≤ d.length ∧ d.length ≤ chunkSize * 2 := by
  have main : ∀ (n : Nat) (stream : List Nat), stream.length = n →
      ∀ (stop : List Bool) (sched : List Nat) (d : List Nat),
        d ∈ listenPlayReceiver stop chunkSize stream sched →
        1 ≤ d.length ∧ d.length ≤ chunkSize * 2 := by
    intro n
    induction n using Nat.strong_induction_on with
    | _ n ih =>
      intro stream hlen stop sched d hd
      rw [listenPlayReceiver.eq_def] at hd
      by_cases hs : stop.headD false
      · rw [if_pos hs] at hd
        simp at hd
      · rw [if_neg hs] at hd
        by_cases hk : recvLen (chunkSize * 2) stream.length
            (sched.headD (chunkSize * 2)) = 0
        · rw [dif_pos hk] at hd
          simp at hd
        · rw [dif_neg hk] at hd
          set k := recvLen (chunkSize * 2) stream.length
            (sched.headD (chunkSize * 2)) with hkdef
          have hka : k ≤ stream.length := by
            rw [hkdef]; exact recvLen_le_avail _ _ _
          have hkr : k ≤ chunkSize * 2 := by
            rw [hkdef]; exact recvLen_le_req _ _ _
          rcases List.mem_cons.mp hd with h | h
          · subst h
            rw [List.length_take]
            omega
          · have hlt : (stream.drop k).length < n := by
              rw [List.length_drop]
              omega
            exact ih (stream.drop k).length hlt (stream.drop k) rfl
              stop.tail sched.tail d h
  exact main stream.length stream rfl stop sched d hd

/-- Witness for C9 (amended): the one-byte item `[1]` from the
counterexample run satisfies the bounds. -/
theorem listenPlayReceiver_item_bounds_witness :
    1 ≤ ([1] : List Nat).length ∧ ([1] : List Nat).length ≤ 2 * 2 :=
  listenPlayReceiver_item_bounds 2 [] [1, 2, 3, 4, 5] [1] [1]
    (by rw [listenPlayReceiver.eq_def]; norm_num [recvLen])

end AmplifyBot
